import Mathlib

/-!
Verification of the node-graph indexing layer of
`source/blender/blenkernel/BKE_node_tree.hpp` (classes `IndexedNodeTree`,
`VirtualNodeTree`) and of the `MTLWriter` constructor of
`source/blender/io/wavefront_obj/intern/wavefront_obj_exporter_mtl.hh`.

The header declares the data model (nodes, sockets, links, the derived
indices) and gives inline bodies for the accessors; the out-of-line method
bodies (`IndexedNodeTree` constructor, `find_connected_sockets_left/right`,
`single_origin_links`, `nodes_with_idname`, `VirtualNodeTree::freeze_and_index`,
`add_bnode`, `add_link`) live in a translation unit that is not part of the
sources at hand, so those parts are modelled from the specification text
(§3 Data Model, §4.1–4.6, §7 of the spec).

Pointers are modelled as natural-number identities: a `bNodeSocket *` is a
`Nat`, a `bNode *` is a `BNode` value carrying its identity `id`.
-/

namespace BKE

/-- Modelled from the spec (§3 Data Model) and the header's `bNode` usage:
a node has an identity (the pointer), a type-identifier string `idname`,
and ordered input and output socket lists.  Sockets are represented by
their identities. -/
structure BNode where
  id : Nat
  idname : String
  inputs : List Nat
  outputs : List Nat
deriving DecidableEq, Repr

/-- Modelled from the spec (§3 Data Model): a link is a directed pair of
sockets, from an output-ish socket to an input-ish socket. -/
structure BLink where
  fromsock : Nat
  tosock : Nat
deriving DecidableEq, Repr

/-- Modelled from the spec (§4.1 Graph Storage Adapter): the source graph
exposes its full node sequence and full link sequence. -/
structure BNodeTree where
  nodes : List BNode
  links : List BLink
deriving DecidableEq, Repr

/-- `SocketWithNode` of the header: a socket together with its owning node
(here the node's identity). -/
structure SocketWithNode where
  socket : Nat
  node : Nat
deriving DecidableEq, Repr

/-- `SingleOriginLink` of the header: (from socket, to socket, link). -/
structure SingleOriginLink where
  fromsock : Nat
  tosock : Nat
  source_link : BLink
deriving DecidableEq, Repr

/-- Modelled from the spec (§4.2 Node Classifier): pass-through nodes are
recognised by a sentinel type-identifier string (`IndexedNodeTree::is_reroute`,
body not in the sources at hand). -/
def is_reroute (n : BNode) : Bool :=
  n.idname == "NodeReroute"

/-- Modelled from the spec (§4.2 Node Classifier): organizational nodes are
recognised by a sentinel type-identifier string (`IndexedNodeTree::is_frame`,
body not in the sources at hand). -/
def is_frame (n : BNode) : Bool :=
  n.idname == "NodeFrame"

/-- All sockets of a node: its input list followed by its output list. -/
def node_sockets (n : BNode) : List Nat :=
  n.inputs ++ n.outputs

/-- All sockets occurring in the node lists of the graph. -/
def allSockets (g : BNodeTree) : List Nat :=
  g.nodes.flatMap node_sockets

/-- Modelled from the spec (§4.3 Socket-to-Node Index): the map
socket → owning node built over every input and output list; lookup of a
foreign socket signals "not found" (`IndexedNodeTree::node_of_socket`,
`m_node_by_socket.lookup`). -/
def node_of_socket (g : BNodeTree) (s : Nat) : Option BNode :=
  g.nodes.find? (fun n => n.inputs.contains s || n.outputs.contains s)

/-- Modelled from the spec (§4.1): the subsequence of nodes that are neither
pass-through nor organizational (`IndexedNodeTree::actual_nodes`,
`m_actual_nodes` built in the constructor, which is not in the sources at
hand). -/
def actual_nodes (g : BNodeTree) : List BNode :=
  g.nodes.filter (fun n => !is_reroute n && !is_frame n)

/-- Modelled from the spec (§4.5 Type Index): nodes grouped by
type-identifier string, discovery order preserved; lookup of an unknown
identifier yields the empty sequence
(`IndexedNodeTree::nodes_with_idname`, body not in the sources at hand). -/
def nodes_with_idname (g : BNodeTree) (idname : String) : List BNode :=
  g.nodes.filter (fun n => n.idname == idname)

/-- Modelled from the spec (§4.4): include a link in the single-origin set
iff its destination socket's direct-link multiplicity is exactly 1
(`IndexedNodeTree::single_origin_links`, body not in the sources at hand). -/
def single_origin_links (g : BNodeTree) : List SingleOriginLink :=
  (g.links.filter
      (fun l => g.links.countP (fun l2 => l2.tosock == l.tosock) == 1)).map
    (fun l => ⟨l.fromsock, l.tosock, l⟩)

/-- The direct links feeding a socket (links whose destination is `s`). -/
def links_into (g : BNodeTree) (s : Nat) : List BLink :=
  g.links.filter (fun l => l.tosock == s)

/-- The direct links leaving a socket (links whose origin is `s`). -/
def links_from (g : BNodeTree) (s : Nat) : List BLink :=
  g.links.filter (fun l => l.fromsock == s)

/-- Modelled from the spec (§4.4 Connectivity Resolver, cycle/safety policy):
the leftward walk of `IndexedNodeTree::find_connected_sockets_left` (body not
in the sources at hand).  From socket `s`, follow each direct link feeding
`s`; a terminal on a non-pass-through node is collected, a pass-through node
is expanded through its first input socket.  Revisiting an
already-expanded socket terminates the branch; the fuel argument makes the
recursion structural, and `socket_bound` below supplies enough fuel that the
visited set, not the fuel, is what terminates every walk. -/
def fcs_left_aux (g : BNodeTree) : Nat → List Nat → Nat → List SocketWithNode
  | 0, _, _ => []
  | fuel + 1, visited, s =>
    (links_into g s).flatMap (fun l =>
      match node_of_socket g l.fromsock with
      | none => []
      | some n =>
        if is_reroute n then
          match n.inputs.head? with
          | none => []
          | some i =>
            if visited.contains i then []
            else fcs_left_aux g fuel (i :: visited) i
        else [⟨l.fromsock, n.id⟩])

/-- Modelled from the spec (§4.4): the rightward walk of
`IndexedNodeTree::find_connected_sockets_right` (body not in the sources at
hand), symmetric to the leftward walk: follow each direct link leaving `s`,
expanding pass-through nodes through their first output socket. -/
def fcs_right_aux (g : BNodeTree) : Nat → List Nat → Nat → List SocketWithNode
  | 0, _, _ => []
  | fuel + 1, visited, s =>
    (links_from g s).flatMap (fun l =>
      match node_of_socket g l.tosock with
      | none => []
      | some n =>
        if is_reroute n then
          match n.outputs.head? with
          | none => []
          | some o =>
            if visited.contains o then []
            else fcs_right_aux g fuel (o :: visited) o
        else [⟨l.tosock, n.id⟩])

/-- One more than the number of distinct sockets of the graph: sufficient
fuel for the walks, since every expansion step marks a previously unvisited
graph socket as visited. -/
def socket_bound (g : BNodeTree) : Nat :=
  (allSockets g).dedup.length + 1

def find_connected_sockets_left (g : BNodeTree) (s : Nat) : List SocketWithNode :=
  fcs_left_aux g (socket_bound g) [] s

def find_connected_sockets_right (g : BNodeTree) (s : Nat) : List SocketWithNode :=
  fcs_right_aux g (socket_bound g) [] s

/-- Modelled from the spec (§4.4): the flattened adjacency
(`IndexedNodeTree::linked`, body not in the sources at hand).  For a
non-pass-through socket the flattened set is obtained by resolving each
directly linked socket: leftward from an input socket, rightward from an
output socket.  The spec defines the flattened adjacency only for
non-pass-through sockets; for the remaining sockets the lookup yields the
empty default. -/
def linked (g : BNodeTree) (s : Nat) : List SocketWithNode :=
  match node_of_socket g s with
  | none => []
  | some n =>
    if is_reroute n then []
    else if n.inputs.contains s then find_connected_sockets_left g s
    else find_connected_sockets_right g s

/-! ### The frozen graph view (`VirtualNodeTree`)

The header gives the accessors inline: `nodes()`, `links()` and
`is_frozen()` return the stored vectors or flag unconditionally, while
`inputs_with_links()`, `nodes_with_idname()`, `VirtualSocket::direct_links()`
and `VirtualSocket::links()` first execute `BLI_assert(m_frozen)`.  An
assertion-guarded accessor is embedded as an `Option`-valued query: `none`
is a failed precondition, `some` a successful call.  The mutators
`add_bnode`/`add_link` and `freeze_and_index` have no body in the sources at
hand and are modelled from the spec (§4.6 Frozen Graph View). -/

/-- A node of the owned snapshot: identity, type identifier, and the
identities of its input and output sockets. -/
structure VNode where
  nid : Nat
  idname : String
  inputs : List Nat
  outputs : List Nat
deriving DecidableEq, Repr

/-- The `VirtualNodeTree` state: the frozen flag, the owned node and link
records, and the index built by `freeze_and_index`. -/
structure VirtualNodeTree where
  m_frozen : Bool
  m_nodes : List VNode
  m_links : List (Nat × Nat)
  m_inputs_with_links : List Nat
deriving DecidableEq, Repr

/-- The empty, unfrozen snapshot. -/
def VirtualNodeTree.empty : VirtualNodeTree :=
  ⟨false, [], [], []⟩

/-- The owned copy viewed as a plain graph, so the §4.4 resolver can run
over it (§4.6 step (b): "build flattened adjacency analogous to 4.4 but
operating over the owned copy"). -/
def VirtualNodeTree.toGraph (t : VirtualNodeTree) : BNodeTree :=
  ⟨t.m_nodes.map (fun n => ⟨n.nid, n.idname, n.inputs, n.outputs⟩),
   t.m_links.map (fun l => ⟨l.1, l.2⟩)⟩

/-- Modelled from the spec (§4.6): `add_bnode` records a node; post-freeze
the structure is immutable, so the call is rejected. -/
def VirtualNodeTree.add_bnode (t : VirtualNodeTree) (n : VNode) :
    Option VirtualNodeTree :=
  if t.m_frozen then none
  else some { t with m_nodes := t.m_nodes ++ [n] }

/-- Modelled from the spec (§4.6): `add_link` records a link between two
sockets; post-freeze the call is rejected. -/
def VirtualNodeTree.add_link (t : VirtualNodeTree) (a b : Nat) :
    Option VirtualNodeTree :=
  if t.m_frozen then none
  else some { t with m_links := t.m_links ++ [(a, b)] }

/-- The sockets directly linked to `s` in the snapshot (either endpoint of a
recorded link). -/
def VirtualNodeTree.socket_direct_links (t : VirtualNodeTree) (s : Nat) :
    List Nat :=
  t.m_links.filterMap (fun l =>
    if l.1 == s then some l.2
    else if l.2 == s then some l.1
    else none)

/-- Modelled from the spec (§4.6): `freeze_and_index` is the single
unfrozen → frozen transition; it builds the "inputs with incoming links"
index over the owned records. -/
def VirtualNodeTree.freeze_and_index (t : VirtualNodeTree) : VirtualNodeTree :=
  { t with
    m_frozen := true,
    m_inputs_with_links :=
      (t.m_nodes.flatMap VNode.inputs).filter
        (fun s => !(t.socket_direct_links s).isEmpty) }

/-- `VirtualNodeTree::nodes()`: inline in the header, no frozen assertion. -/
def VirtualNodeTree.nodes_q (t : VirtualNodeTree) : Option (List VNode) :=
  some t.m_nodes

/-- `VirtualNodeTree::links()`: inline in the header, no frozen assertion. -/
def VirtualNodeTree.links_q (t : VirtualNodeTree) : Option (List (Nat × Nat)) :=
  some t.m_links

/-- `VirtualNodeTree::is_frozen()`: inline in the header, no assertion. -/
def VirtualNodeTree.is_frozen_q (t : VirtualNodeTree) : Option Bool :=
  some t.m_frozen

/-- `VirtualNodeTree::inputs_with_links()`: inline in the header, guarded by
`BLI_assert(m_frozen)`. -/
def VirtualNodeTree.inputs_with_links_q (t : VirtualNodeTree) :
    Option (List Nat) :=
  if t.m_frozen then some t.m_inputs_with_links else none

/-- `VirtualNodeTree::nodes_with_idname(idname)`: inline in the header,
guarded by `BLI_assert(m_frozen)`; the lookup itself is the type-index
default lookup of §4.5. -/
def VirtualNodeTree.nodes_with_idname_q (t : VirtualNodeTree) (idname : String) :
    Option (List VNode) :=
  if t.m_frozen then some (t.m_nodes.filter (fun n => n.idname == idname))
  else none

/-- `VirtualSocket::direct_links()`: inline in the header, guarded by
`BLI_assert(m_vnode->m_backlink->is_frozen())`. -/
def VirtualNodeTree.direct_links_q (t : VirtualNodeTree) (s : Nat) :
    Option (List Nat) :=
  if t.m_frozen then some (t.socket_direct_links s) else none

/-- `VirtualSocket::links()`: inline in the header, guarded by
`BLI_assert(m_vnode->m_backlink->is_frozen())`; the flattened links are the
§4.4 resolution over the owned copy. -/
def VirtualNodeTree.links_of_socket_q (t : VirtualNodeTree) (s : Nat) :
    Option (List Nat) :=
  if t.m_frozen then some ((linked t.toGraph s).map SocketWithNode.socket)
  else none

end BKE

namespace ObjExport

/-- `PATH_MAX`, the fixed capacity of `MTLWriter::_mtl_filepath`. -/
def PATH_MAX : Nat := 4096

/-- Modelled from the spec: `BLI_strncpy(dst, src, maxncpy)` is not in the
sources at hand; it copies the source into a buffer of capacity `maxncpy`,
truncating to at most `maxncpy - 1` characters plus the terminator.
Strings are modelled as character lists without the terminator. -/
def BLI_strncpy (src : List Char) (maxncpy : Nat) : List Char :=
  src.take (maxncpy - 1)

/-- `true` iff the last path component of `p` contains a `.`, i.e. `p` has a
file extension. -/
def has_extension (p : List Char) : Bool :=
  (p.reverse.takeWhile (fun c => c ≠ '/')).contains '.'

/-- `p` with its file extension (the last `.` of the last path component and
everything after it) removed; `p` itself when it has no extension. -/
def strip_extension (p : List Char) : List Char :=
  if has_extension p then p.take (p.length - 1 - p.reverse.indexOf '.')
  else p

/-- Modelled from the spec: `BLI_path_extension_replace(path, maxlen, ext)`
is not in the sources at hand; it replaces the file extension of `path` by
`ext`, keeping the result within the buffer capacity `maxlen`. -/
def BLI_path_extension_replace (p : List Char) (maxlen : Nat) (ext : List Char) :
    List Char :=
  (strip_extension p ++ ext).take (maxlen - 1)

/-- The state established by the `MTLWriter` constructor: the computed
`.mtl` output path. -/
structure MTLWriter where
  mtl_filepath : List Char
deriving DecidableEq, Repr

/-- The `MTLWriter(const char *obj_filepath)` constructor body (inline in
the header): `BLI_strncpy(_mtl_filepath, obj_filepath, PATH_MAX)` followed by
`BLI_path_extension_replace(_mtl_filepath, PATH_MAX, ".mtl")`.  The caller's
buffer is `const`; the first component of the result is that buffer after
construction. -/
def MTLWriter_construct (obj_filepath : List Char) : List Char × MTLWriter :=
  (obj_filepath,
   ⟨BLI_path_extension_replace (BLI_strncpy obj_filepath PATH_MAX) PATH_MAX
      ('.' :: 'm' :: 't' :: 'l' :: [])⟩)

end ObjExport

namespace BKE

/-! ### Well-formedness predicates and fixtures -/

/-- The spec's data-model invariant "a socket belongs to exactly one node":
no socket identity occurs twice across the node lists (distinct
`bNodeSocket` pointers in the C++ source). -/
def UniqueSockets (g : BNodeTree) : Prop :=
  (allSockets g).Nodup

instance (g : BNodeTree) : Decidable (UniqueSockets g) := by
  unfold UniqueSockets
  infer_instance

/-- The spec's §8 scenario fixture: node A with output `0`, reroute R with
input `10` and output `11`, node B with input `1`; links `0 → 10`,
`11 → 1`. -/
def sampleTree : BNodeTree :=
  ⟨[⟨0, "ShaderNodeA", [], [0]⟩,
    ⟨1, "ShaderNodeB", [1], []⟩,
    ⟨2, "NodeReroute", [10], [11]⟩],
   [⟨0, 10⟩, ⟨11, 1⟩]⟩

/-- Fixture for the single-origin-link claim: sockets `1` receives two
links, socket `3` exactly one. -/
def dualTree : BNodeTree :=
  ⟨[⟨0, "ShaderNodeA", [], [0, 2]⟩,
    ⟨1, "ShaderNodeB", [1, 3], []⟩],
   [⟨0, 1⟩, ⟨2, 1⟩, ⟨2, 3⟩]⟩

/-- `find?` returns the unique element satisfying the predicate when there
is exactly one in the list. -/
theorem find?_eq_some_of_unique {α : Type} {p : α → Bool} :
    ∀ {l : List α} {n : α}, n ∈ l → p n = true →
      (∀ m ∈ l, p m = true → m = n) → l.find? p = some n := by
  intro l
  induction l with
  | nil => intro n hn; cases hn
  | cons a l ih =>
    intro n hn hp huniq
    by_cases ha : p a = true
    · have han : a = n := huniq a (List.mem_cons_self a l) ha
      rw [List.find?_cons_of_pos _ ha, han]
    · have hne : n ≠ a := fun h => ha (h ▸ hp)
      have hn' : n ∈ l := by
        rcases List.mem_cons.mp hn with h | h
        · exact absurd h hne
        · exact h
      rw [List.find?_cons_of_neg _ (by simpa using ha)]
      exact ih hn' hp (fun m hm hpm => huniq m (List.mem_cons_of_mem a hm) hpm)

/-- Under socket uniqueness, two nodes of the graph containing the same
socket are equal. -/
theorem owner_unique {g : BNodeTree} (h : UniqueSockets g) {n₁ n₂ : BNode}
    {s : Nat} (h₁ : n₁ ∈ g.nodes) (h₂ : n₂ ∈ g.nodes)
    (hs₁ : s ∈ node_sockets n₁) (hs₂ : s ∈ node_sockets n₂) : n₁ = n₂ := by
  by_contra hne
  have hpair := (List.nodup_flatMap.mp h).2
  have hsymm : Symmetric (Function.onFun List.Disjoint node_sockets) :=
    fun a b hab x hxa hxb => hab hxb hxa
  have hdisj := hpair.forall hsymm h₁ h₂ hne
  exact hdisj hs₁ hs₂

/-! ### Claims C3, C5, C6, C7 -/

/-- C3: for every link `L` of the graph with destination socket `D`, `L` is
contained in `single_origin_links()` iff exactly one link of the graph
targets `D`; in particular two links on the same destination exclude both. -/
theorem single_origin_links_iff (g : BNodeTree) (l : BLink) (hl : l ∈ g.links) :
    (⟨l.fromsock, l.tosock, l⟩ : SingleOriginLink) ∈ single_origin_links g ↔
      g.links.countP (fun l2 => l2.tosock == l.tosock) = 1 := by
  unfold single_origin_links
  constructor
  · intro hmem
    rcases List.mem_map.mp hmem with ⟨a, ha, heq⟩
    have : a = l := congrArg SingleOriginLink.source_link heq
    subst this
    have := (List.mem_filter.mp ha).2
    simpa using this
  · intro hcount
    exact List.mem_map.mpr ⟨l, List.mem_filter.mpr ⟨hl, by simpa using hcount⟩, rfl⟩

/-- Witness for C3 on `dualTree`: the link `2 → 3` is a single-origin link
because socket `3` receives exactly one link. -/
theorem single_origin_links_iff_witness :
    (⟨2, 3, ⟨2, 3⟩⟩ : SingleOriginLink) ∈ single_origin_links dualTree :=
  (single_origin_links_iff dualTree ⟨2, 3⟩ (by decide)).mpr (by decide)

/-- C5: `actual_nodes` contains no pass-through (reroute) and no
organizational (frame) node, and contains every other node of the graph
exactly once (node identities — C++ pointers — are pairwise distinct). -/
theorem actual_nodes_spec (g : BNodeTree)
    (hnd : (g.nodes.map BNode.id).Nodup) :
    (∀ n ∈ actual_nodes g, is_reroute n = false ∧ is_frame n = false) ∧
    (∀ n ∈ g.nodes, is_reroute n = false → is_frame n = false →
      (actual_nodes g).count n = 1) := by
  constructor
  · intro n hn
    have h := (List.mem_filter.mp hn).2
    constructor
    · cases hr : is_reroute n
      · rfl
      · simp [hr] at h
    · cases hf : is_frame n
      · rfl
      · simp [hf] at h
  · intro n hn hr hf
    unfold actual_nodes
    rw [List.count_filter (by simp [hr, hf])]
    exact List.count_eq_one_of_mem (List.Nodup.of_map _ hnd) hn

/-- Witness for C5 on `sampleTree`: node B is neither a reroute nor a frame
and occurs exactly once in `actual_nodes`. -/
theorem actual_nodes_spec_witness :
    (actual_nodes sampleTree).count ⟨1, "ShaderNodeB", [1], []⟩ = 1 :=
  (actual_nodes_spec sampleTree (by decide)).2 ⟨1, "ShaderNodeB", [1], []⟩
    (by decide) (by decide) (by decide)

/-- C6: the type index places every node in exactly the bucket matching its
type identifier, buckets preserve discovery order (they are subsequences of
the node sequence), and a type identifier present on no node yields the
empty sequence, not an error. -/
theorem nodes_with_idname_spec (g : BNodeTree) (idname : String) :
    (∀ n : BNode, n ∈ nodes_with_idname g idname ↔
      n ∈ g.nodes ∧ n.idname = idname) ∧
    (nodes_with_idname g idname).Sublist g.nodes ∧
    ((∀ n ∈ g.nodes, n.idname ≠ idname) → nodes_with_idname g idname = []) := by
  refine ⟨?_, ?_, ?_⟩
  · intro n
    unfold nodes_with_idname
    rw [List.mem_filter]
    simp
  · exact List.filter_sublist g.nodes
  · intro habs
    unfold nodes_with_idname
    rw [List.filter_eq_nil_iff]
    intro n hn
    simpa using habs n hn

/-- Witness for C6 on `sampleTree`: no node carries the identifier
`ShaderNodeTexImage`, and the query returns the empty sequence. -/
theorem nodes_with_idname_spec_witness :
    nodes_with_idname sampleTree "ShaderNodeTexImage" = [] :=
  (nodes_with_idname_spec sampleTree "ShaderNodeTexImage").2.2 (by decide)

/-- C7: under the data-model invariant that a socket belongs to exactly one
node, `node_of_socket` returns precisely the node whose input or output list
contains the socket, and signals lookup failure exactly on sockets foreign
to the graph. -/
theorem node_of_socket_spec (g : BNodeTree) (hU : UniqueSockets g) (s : Nat) :
    (∀ n : BNode, node_of_socket g s = some n ↔
      n ∈ g.nodes ∧ s ∈ node_sockets n) ∧
    (node_of_socket g s = none ↔ ∀ n ∈ g.nodes, s ∉ node_sockets n) := by
  have hcont : ∀ m : BNode,
      (m.inputs.contains s || m.outputs.contains s) = true ↔ s ∈ node_sockets m := by
    intro m
    simp [node_sockets]
  unfold node_of_socket
  constructor
  · intro n
    constructor
    · intro h
      have hp := List.find?_some h
      exact ⟨List.mem_of_find?_eq_some h, (hcont n).mp hp⟩
    · rintro ⟨hn, hs⟩
      apply find?_eq_some_of_unique hn ((hcont n).mpr hs)
      intro m hm hpm
      exact owner_unique hU hm hn ((hcont m).mp hpm) hs
  · rw [List.find?_eq_none]
    constructor
    · intro h n hn hs
      exact absurd ((hcont n).mpr hs) (by simpa using h n hn)
    · intro h n hn
      intro hc
      exact h n hn ((hcont n).mp hc)

/-! ### Claims C4 and C9: the frozen-view state machine -/

/-- C4: the `VirtualNodeTree` is a two-state machine.  In the unfrozen state
every structural query (`inputs_with_links`, `nodes_with_idname`,
`VirtualSocket::direct_links`, `VirtualSocket::links`) fails its
precondition while the mutations succeed; in the frozen state every mutation
(`add_bnode`, `add_link`) is rejected while the structural queries succeed;
`freeze_and_index` establishes the frozen state and the mutations never
change the flag, so it is the single transition between the two states. -/
theorem virtual_tree_state_machine (t : VirtualNodeTree) (n : VNode)
    (idname : String) (a b s : Nat) :
    (t.m_frozen = false →
      t.inputs_with_links_q = none ∧ t.nodes_with_idname_q idname = none ∧
      t.direct_links_q s = none ∧ t.links_of_socket_q s = none ∧
      (t.add_bnode n).isSome = true ∧ (t.add_link a b).isSome = true) ∧
    (t.m_frozen = true →
      t.add_bnode n = none ∧ t.add_link a b = none ∧
      (t.inputs_with_links_q).isSome = true ∧
      (t.nodes_with_idname_q idname).isSome = true ∧
      (t.direct_links_q s).isSome = true ∧
      (t.links_of_socket_q s).isSome = true) ∧
    (t.freeze_and_index).m_frozen = true ∧
    (∀ t' : VirtualNodeTree, t.add_bnode n = some t' → t'.m_frozen = t.m_frozen) ∧
    (∀ t' : VirtualNodeTree, t.add_link a b = some t' → t'.m_frozen = t.m_frozen) := by
  refine ⟨?_, ?_, ?_, ?_, ?_⟩
  · intro hf
    simp [VirtualNodeTree.inputs_with_links_q, VirtualNodeTree.nodes_with_idname_q,
      VirtualNodeTree.direct_links_q, VirtualNodeTree.links_of_socket_q,
      VirtualNodeTree.add_bnode, VirtualNodeTree.add_link, hf]
  · intro hf
    simp [VirtualNodeTree.inputs_with_links_q, VirtualNodeTree.nodes_with_idname_q,
      VirtualNodeTree.direct_links_q, VirtualNodeTree.links_of_socket_q,
      VirtualNodeTree.add_bnode, VirtualNodeTree.add_link, hf]
  · rfl
  · intro t' h
    unfold VirtualNodeTree.add_bnode at h
    by_cases hf : t.m_frozen
    · simp [hf] at h
    · simp [hf] at h
      rw [← h]
      simp [hf]
  · intro t' h
    unfold VirtualNodeTree.add_link at h
    by_cases hf : t.m_frozen
    · simp [hf] at h
    · simp [hf] at h
      rw [← h]
      simp [hf]

/-- Witness for C4: on the empty unfrozen snapshot the structural query
fails its precondition, and after `freeze_and_index` the mutation is
rejected. -/
theorem virtual_tree_state_machine_witness :
    VirtualNodeTree.empty.inputs_with_links_q = none ∧
    (VirtualNodeTree.empty.freeze_and_index.add_bnode ⟨0, "ShaderNodeA", [], []⟩)
      = none :=
  ⟨((virtual_tree_state_machine VirtualNodeTree.empty ⟨0, "ShaderNodeA", [], []⟩
      "ShaderNodeA" 0 1 2).1 (by decide)).1,
   ((virtual_tree_state_machine VirtualNodeTree.empty.freeze_and_index
      ⟨0, "ShaderNodeA", [], []⟩ "ShaderNodeA" 0 1 2).2.1 (by decide)).1⟩

/-- C9: on a `VirtualNodeTree` in either state, the accessors `nodes()`,
`links()` and `is_frozen()` succeed unconditionally, returning the stored
data, whereas `inputs_with_links()` and `nodes_with_idname()` fail exactly
in the unfrozen state: the three flag-free accessors are precisely the
precondition-free part of the snapshot interface. -/
theorem virtual_tree_accessor_preconditions (t : VirtualNodeTree)
    (idname : String) :
    t.nodes_q = some t.m_nodes ∧
    t.links_q = some t.m_links ∧
    t.is_frozen_q = some t.m_frozen ∧
    ((t.inputs_with_links_q).isSome = true ↔ t.m_frozen = true) ∧
    ((t.nodes_with_idname_q idname).isSome = true ↔ t.m_frozen = true) := by
  refine ⟨rfl, rfl, rfl, ?_, ?_⟩
  · unfold VirtualNodeTree.inputs_with_links_q
    by_cases hf : t.m_frozen
    · simp [hf]
    · simp [hf]
  · unfold VirtualNodeTree.nodes_with_idname_q
    by_cases hf : t.m_frozen
    · simp [hf]
    · simp [hf]

/-- Witness for C9 on the empty unfrozen snapshot: the three accessors
succeed while the assertion-guarded queries fail. -/
theorem virtual_tree_accessor_preconditions_witness :
    VirtualNodeTree.empty.nodes_q = some [] ∧
    ((VirtualNodeTree.empty.nodes_with_idname_q "ShaderNodeTexImage").isSome
        = true ↔ VirtualNodeTree.empty.m_frozen = true) :=
  ⟨(virtual_tree_accessor_preconditions VirtualNodeTree.empty
      "ShaderNodeTexImage").1,
   (virtual_tree_accessor_preconditions VirtualNodeTree.empty
      "ShaderNodeTexImage").2.2.2.2⟩

/-- Witness for C7 on `sampleTree`: socket `10` belongs to the reroute node,
and the foreign socket `99` fails the lookup. -/
theorem node_of_socket_spec_witness :
    node_of_socket sampleTree 10 = some ⟨2, "NodeReroute", [10], [11]⟩ ∧
    node_of_socket sampleTree 99 = none :=
  ⟨((node_of_socket_spec sampleTree (by decide) 10).1
      ⟨2, "NodeReroute", [10], [11]⟩).mpr ⟨by decide, by decide⟩,
   (node_of_socket_spec sampleTree (by decide) 99).2.mpr (by decide)⟩

end BKE

namespace ObjExport

/-! ### Claim C10: the `MTLWriter` constructor -/

/-- C10: for every input path, the `MTLWriter` constructor sets the output
path to the input truncated to the `PATH_MAX` bound with its file extension
replaced by `.mtl` (the result also stays within the `PATH_MAX` buffer), and
the caller's `obj_filepath` buffer is left unchanged. -/
theorem mtl_writer_construct_spec (obj_filepath : List Char) :
    (MTLWriter_construct obj_filepath).1 = obj_filepath ∧
    (MTLWriter_construct obj_filepath).2.mtl_filepath =
      (strip_extension (obj_filepath.take (PATH_MAX - 1)) ++
        ('.' :: 'm' :: 't' :: 'l' :: [])).take (PATH_MAX - 1) ∧
    (MTLWriter_construct obj_filepath).2.mtl_filepath.length ≤ PATH_MAX - 1 := by
  refine ⟨rfl, rfl, ?_⟩
  have h : (MTLWriter_construct obj_filepath).2.mtl_filepath =
      (strip_extension (obj_filepath.take (PATH_MAX - 1)) ++
        ('.' :: 'm' :: 't' :: 'l' :: [])).take (PATH_MAX - 1) := rfl
  rw [h, List.length_take]
  exact min_le_left _ _

end ObjExport

namespace BKE

/-! ### Claim C2: termination of the connectivity resolution -/

/-- The number of distinct graph sockets not yet in the visited set: the
termination measure of the walks. -/
def unvisited (g : BNodeTree) (visited : List Nat) : Nat :=
  ((allSockets g).dedup.filter (fun x => !visited.contains x)).length

/-- Removing the occurrences of a present element strictly shrinks a list. -/
theorem length_filter_ne_lt {l : List Nat} {i : Nat} (hi : i ∈ l) :
    (l.filter (fun x => !(x == i))).length < l.length := by
  induction l with
  | nil => cases hi
  | cons a l ih =>
    by_cases ha : (a == i) = true
    · simp only [List.filter_cons, ha, Bool.not_true, List.length_cons]
      exact Nat.lt_succ_of_le (List.length_filter_le _ _)
    · have hi' : i ∈ l := by
        rcases List.mem_cons.mp hi with h | h
        · exact absurd (by simp [h]) ha
        · exact h
      simp only [List.filter_cons, ha, Bool.not_false, List.length_cons]
      exact Nat.succ_lt_succ (ih hi')

/-- Marking an unvisited graph socket strictly decreases the measure. -/
theorem unvisited_cons_lt {g : BNodeTree} {visited : List Nat} {i : Nat}
    (hi : i ∈ allSockets g) (hvis : visited.contains i = false) :
    unvisited g (i :: visited) < unvisited g visited := by
  unfold unvisited
  have hrw : (allSockets g).dedup.filter (fun x => !(i :: visited).contains x) =
      ((allSockets g).dedup.filter (fun x => !visited.contains x)).filter
        (fun x => !(x == i)) := by
    rw [List.filter_filter]
    apply List.filter_congr
    intro x _
    cases hxi : x == i <;> cases hxv : visited.contains x <;>
      simp_all [List.contains_cons]
  rw [hrw]
  apply length_filter_ne_lt
  rw [List.mem_filter]
  exact ⟨List.mem_dedup.mpr hi, by simpa using hvis⟩

/-- A socket produced as the first input of a node found by the
socket-to-node lookup is a graph socket. -/
theorem head_input_mem_allSockets {g : BNodeTree} {f i : Nat} {n : BNode}
    (hn : node_of_socket g f = some n) (hi : n.inputs.head? = some i) :
    i ∈ allSockets g := by
  have hmem : n ∈ g.nodes := List.mem_of_find?_eq_some hn
  have : i ∈ n.inputs := by
    cases hl : n.inputs with
    | nil => rw [hl] at hi; cases hi
    | cons a l =>
      rw [hl] at hi
      simp at hi
      simp [hl, hi]
  exact List.mem_flatMap_of_mem hmem (by simp [node_sockets, this])

/-- A socket produced as the first output of a node found by the
socket-to-node lookup is a graph socket. -/
theorem head_output_mem_allSockets {g : BNodeTree} {f o : Nat} {n : BNode}
    (hn : node_of_socket g f = some n) (ho : n.outputs.head? = some o) :
    o ∈ allSockets g := by
  have hmem : n ∈ g.nodes := List.mem_of_find?_eq_some hn
  have : o ∈ n.outputs := by
    cases hl : n.outputs with
    | nil => rw [hl] at ho; cases ho
    | cons a l =>
      rw [hl] at ho
      simp at ho
      simp [hl, ho]
  exact List.mem_flatMap_of_mem hmem (by simp [node_sockets, this])

/-- Any two fuel values above the measure give the leftward walk the same
result: the visited set, not the fuel, terminates the recursion. -/
theorem fcs_left_aux_fuel_congr (g : BNodeTree) :
    ∀ fuel₁ fuel₂ visited s, unvisited g visited < fuel₁ →
      unvisited g visited < fuel₂ →
      fcs_left_aux g fuel₁ visited s = fcs_left_aux g fuel₂ visited s := by
  intro fuel₁
  induction fuel₁ with
  | zero => intro fuel₂ visited s h1 _; cases h1
  | succ f1 ih =>
    intro fuel₂ visited s h1 h2
    cases fuel₂ with
    | zero => cases h2
    | succ f2 =>
      simp only [fcs_left_aux]
      apply List.flatMap_congr
      intro l _
      cases hn : node_of_socket g l.fromsock with
      | none => rfl
      | some n =>
        by_cases hr : is_reroute n
        · simp only [hr, if_true]
          cases hh : n.inputs.head? with
          | none => rfl
          | some i =>
            by_cases hv : visited.contains i
            · have hm : i ∈ visited := by simpa using hv
              simp [hm]
            · have hvf : visited.contains i = false := by
                exact Bool.not_eq_true _ ▸ (by simpa using hv)
              have hdec := unvisited_cons_lt
                (head_input_mem_allSockets hn hh) hvf
              simp only [hvf, Bool.false_eq_true, if_false]
              exact ih f2 (i :: visited) i
                (Nat.lt_of_lt_of_le hdec (Nat.lt_succ_iff.mp h1))
                (Nat.lt_of_lt_of_le hdec (Nat.lt_succ_iff.mp h2))
        · simp [hr]

/-- Any two fuel values above the measure give the rightward walk the same
result. -/
theorem fcs_right_aux_fuel_congr (g : BNodeTree) :
    ∀ fuel₁ fuel₂ visited s, unvisited g visited < fuel₁ →
      unvisited g visited < fuel₂ →
      fcs_right_aux g fuel₁ visited s = fcs_right_aux g fuel₂ visited s := by
  intro fuel₁
  induction fuel₁ with
  | zero => intro fuel₂ visited s h1 _; cases h1
  | succ f1 ih =>
    intro fuel₂ visited s h1 h2
    cases fuel₂ with
    | zero => cases h2
    | succ f2 =>
      simp only [fcs_right_aux]
      apply List.flatMap_congr
      intro l _
      cases hn : node_of_socket g l.tosock with
      | none => rfl
      | some n =>
        by_cases hr : is_reroute n
        · simp only [hr, if_true]
          cases hh : n.outputs.head? with
          | none => rfl
          | some o =>
            by_cases hv : visited.contains o
            · have hm : o ∈ visited := by simpa using hv
              simp [hm]
            · have hvf : visited.contains o = false := by
                exact Bool.not_eq_true _ ▸ (by simpa using hv)
              have hdec := unvisited_cons_lt
                (head_output_mem_allSockets hn hh) hvf
              simp only [hvf, Bool.false_eq_true, if_false]
              exact ih f2 (o :: visited) o
                (Nat.lt_of_lt_of_le hdec (Nat.lt_succ_iff.mp h1))
                (Nat.lt_of_lt_of_le hdec (Nat.lt_succ_iff.mp h2))
        · simp [hr]

/-- The measure of the empty visited set is below the fuel budget. -/
theorem unvisited_nil_lt_socket_bound (g : BNodeTree) :
    unvisited g [] < socket_bound g := by
  unfold unvisited socket_bound
  simp only [List.contains_nil, Bool.not_false, List.filter_true]
  exact Nat.lt_succ_self _

end BKE

namespace BKE

/-- A malformed graph whose pass-through chain is cyclic: reroute `3`
(input `20`, output `21`) and reroute `4` (input `22`, output `23`) with
links `21 → 22`, `23 → 20`, and `21 → 1` into the ordinary node `1`. -/
def cyclicTree : BNodeTree :=
  ⟨[⟨1, "ShaderNodeB", [1], []⟩,
    ⟨3, "NodeReroute", [20], [21]⟩,
    ⟨4, "NodeReroute", [22], [23]⟩],
   [⟨21, 22⟩, ⟨23, 20⟩, ⟨21, 1⟩]⟩

/-- A malformed graph with dangling link endpoints: sockets `77` and `99`
belong to no node. -/
def danglingTree : BNodeTree :=
  ⟨[⟨0, "ShaderNodeA", [], [0]⟩], [⟨0, 77⟩, ⟨99, 0⟩]⟩

/-- C2: on every input graph — cyclic pass-through chains and dangling
sockets included — the connectivity resolution terminates with a completed
result: any fuel at or above the `socket_bound` budget yields the same
value, because each expansion step marks a fresh socket visited and a
revisited socket terminates the branch; concretely, the cyclic and dangling
fixtures resolve to completed (here empty) results. -/
theorem resolver_total_and_stable (g : BNodeTree) (s k : Nat) :
    fcs_left_aux g (socket_bound g + k) [] s = find_connected_sockets_left g s ∧
    fcs_right_aux g (socket_bound g + k) [] s = find_connected_sockets_right g s ∧
    find_connected_sockets_left cyclicTree 1 = [] ∧
    find_connected_sockets_right danglingTree 0 = [] := by
  refine ⟨?_, ?_, by decide, by decide⟩
  · exact fcs_left_aux_fuel_congr g _ _ [] s
      (Nat.lt_of_lt_of_le (unvisited_nil_lt_socket_bound g) (Nat.le_add_right _ _))
      (unvisited_nil_lt_socket_bound g)
  · exact fcs_right_aux_fuel_congr g _ _ [] s
      (Nat.lt_of_lt_of_le (unvisited_nil_lt_socket_bound g) (Nat.le_add_right _ _))
      (unvisited_nil_lt_socket_bound g)

end BKE

namespace BKE

/-! ### Claim C1: chain-length independence of flattening

The parametric family `chainGraph N` routes the same two endpoints through a
chain of `N` pass-through nodes: node A (identity `0`, output socket `0`)
feeds reroute `R 0`, each `R k` (identity `2+k`, input `10+2k`, output
`11+2k`) feeds `R (k+1)`, and `R (N-1)` feeds node B (identity `1`, input
socket `1`). -/

def chainA : BNode := ⟨0, "ShaderNodeA", [], [0]⟩

def chainB : BNode := ⟨1, "ShaderNodeB", [1], []⟩

def chainR (k : Nat) : BNode := ⟨2 + k, "NodeReroute", [10 + 2*k], [11 + 2*k]⟩

/-- The chain of `N ≥ 1` pass-through nodes between endpoints A and B; note
`9 + 2*N = 11 + 2*(N-1)` is the output socket of the last reroute. -/
def chainGraph (N : Nat) : BNodeTree :=
  ⟨chainA :: chainB :: (List.range N).map chainR,
   ⟨0, 10⟩ :: ⟨9 + 2*N, 1⟩ ::
     (List.range (N - 1)).map (fun k => ⟨11 + 2*k, 12 + 2*k⟩)⟩

/-- Filtering a range by equality with one of its members keeps exactly that
member. -/
theorem range_filter_beq (n m : Nat) (hm : m < n) :
    (List.range n).filter (fun j => j == m) = [m] := by
  induction n with
  | zero => cases hm
  | succ n ih =>
    rw [List.range_succ, List.filter_append]
    by_cases h : m < n
    · rw [ih h]
      have hne : (n == m) = false := by
        simp only [beq_eq_false_iff_ne, ne_eq]
        omega
      simp [hne]
    · have hm' : m = n := by omega
      subst hm'
      have hnil : (List.range m).filter (fun j => j == m) = [] := by
        rw [List.filter_eq_nil_iff]
        intro a ha
        have := List.mem_range.mp ha
        simp only [beq_iff_eq]
        omega
      simp [hnil]

theorem chainGraph_node_of_A (N : Nat) :
    node_of_socket (chainGraph N) 0 = some chainA :=
  List.find?_cons_of_pos _ (by decide)

theorem chainGraph_node_of_B (N : Nat) :
    node_of_socket (chainGraph N) 1 = some chainB := by
  show List.find? _ (chainA :: chainB :: _) = _
  rw [List.find?_cons_of_neg _ (by decide), List.find?_cons_of_pos _ (by decide)]

theorem chainGraph_node_of_Rin (N k : Nat) (hk : k < N) :
    node_of_socket (chainGraph N) (10 + 2*k) = some (chainR k) := by
  show List.find? _ (chainA :: chainB :: _) = _
  rw [List.find?_cons_of_neg _ (by simp [chainA]),
      List.find?_cons_of_neg _ (by simp [chainB]; omega)]
  apply find?_eq_some_of_unique
  · exact List.mem_map.mpr ⟨k, List.mem_range.mpr hk, rfl⟩
  · simp [chainR]
  · intro m hm hpm
    obtain ⟨j, _, rfl⟩ := List.mem_map.mp hm
    have : j = k := by
      simp [chainR] at hpm
      omega
    rw [this]

theorem chainGraph_node_of_Rout (N k : Nat) (hk : k < N) :
    node_of_socket (chainGraph N) (11 + 2*k) = some (chainR k) := by
  show List.find? _ (chainA :: chainB :: _) = _
  rw [List.find?_cons_of_neg _ (by simp [chainA]),
      List.find?_cons_of_neg _ (by simp [chainB]; omega)]
  apply find?_eq_some_of_unique
  · exact List.mem_map.mpr ⟨k, List.mem_range.mpr hk, rfl⟩
  · simp [chainR]
  · intro m hm hpm
    obtain ⟨j, _, rfl⟩ := List.mem_map.mp hm
    have : j = k := by
      simp [chainR] at hpm
      omega
    rw [this]

end BKE

namespace BKE

theorem chainGraph_links_into_B (N : Nat) (hN : 1 ≤ N) :
    links_into (chainGraph N) 1 = [⟨9 + 2*N, 1⟩] := by
  have hpt : ∀ j : Nat, ((12 + 2*j : Nat) == 1) = false := by
    intro j
    simp only [beq_eq_false_iff_ne, ne_eq]
    omega
  unfold links_into chainGraph
  simp [List.filter_cons, List.filter_map, Function.comp_def, hpt]

theorem chainGraph_links_into_R0 (N : Nat) :
    links_into (chainGraph N) 10 = [⟨0, 10⟩] := by
  have hpt : ∀ j : Nat, ((12 + 2*j : Nat) == 10) = false := by
    intro j
    simp only [beq_eq_false_iff_ne, ne_eq]
    omega
  unfold links_into chainGraph
  simp [List.filter_cons, List.filter_map, Function.comp_def, hpt]

theorem chainGraph_links_into_Rk (N k : Nat) (hk1 : 1 ≤ k) (hkN : k < N) :
    links_into (chainGraph N) (10 + 2*k) =
      [⟨11 + 2*(k-1), 12 + 2*(k-1)⟩] := by
  have hpt : ∀ j : Nat, ((12 + 2*j : Nat) == 10 + 2*k) = (j == k - 1) := by
    intro j
    by_cases h : j = k - 1
    · subst h
      have h12 : 12 + 2*(k-1) = 10 + 2*k := by omega
      rw [h12]
      simp
    · have h1 : ((12 + 2*j : Nat) == 10 + 2*k) = false := by
        simp only [beq_eq_false_iff_ne, ne_eq]
        omega
      have h2 : (j == k - 1) = false := by simp [h]
      rw [h1, h2]
  have hA : ((10 : Nat) == 10 + 2*k) = false := by
    simp only [beq_eq_false_iff_ne, ne_eq]
    omega
  have hB : ((1 : Nat) == 10 + 2*k) = false := by
    simp only [beq_eq_false_iff_ne, ne_eq]
    omega
  unfold links_into chainGraph
  simp only [List.filter_cons, List.filter_map, Function.comp_def, hpt, hA, hB,
    Bool.false_eq_true, if_false]
  rw [range_filter_beq _ _ (by omega)]
  rfl

theorem chainGraph_links_from_A (N : Nat) (hN : 1 ≤ N) :
    links_from (chainGraph N) 0 = [⟨0, 10⟩] := by
  have hpt : ∀ j : Nat, ((11 + 2*j : Nat) == 0) = false := by
    intro j
    simp only [beq_eq_false_iff_ne, ne_eq]
    omega
  have hL : ((9 + 2*N : Nat) == 0) = false := by
    simp only [beq_eq_false_iff_ne, ne_eq]
    omega
  unfold links_from chainGraph
  simp [List.filter_cons, List.filter_map, Function.comp_def, hpt, hL]

theorem chainGraph_links_from_Rk (N k : Nat) (hk : k + 1 < N) :
    links_from (chainGraph N) (11 + 2*k) = [⟨11 + 2*k, 12 + 2*k⟩] := by
  have hpt : ∀ j : Nat, ((11 + 2*j : Nat) == 11 + 2*k) = (j == k) := by
    intro j
    by_cases h : j = k
    · subst h
      simp
    · have h1 : ((11 + 2*j : Nat) == 11 + 2*k) = false := by
        simp only [beq_eq_false_iff_ne, ne_eq]
        omega
      have h2 : (j == k) = false := by simp [h]
      rw [h1, h2]
  have hA : ((0 : Nat) == 11 + 2*k) = false := by
    simp only [beq_eq_false_iff_ne, ne_eq]
    omega
  have hL : ((9 + 2*N : Nat) == 11 + 2*k) = false := by
    simp only [beq_eq_false_iff_ne, ne_eq]
    omega
  unfold links_from chainGraph
  simp only [List.filter_cons, List.filter_map, Function.comp_def, hpt, hA, hL,
    Bool.false_eq_true, if_false]
  rw [range_filter_beq _ _ (by omega)]
  rfl

theorem chainGraph_links_from_last (N : Nat) (hN : 1 ≤ N) :
    links_from (chainGraph N) (9 + 2*N) = [⟨9 + 2*N, 1⟩] := by
  have hpt : ∀ j : Nat, j < N - 1 → ((11 + 2*j : Nat) == 9 + 2*N) = false := by
    intro j hj
    simp only [beq_eq_false_iff_ne, ne_eq]
    omega
  have hA : ((0 : Nat) == 9 + 2*N) = false := by
    simp only [beq_eq_false_iff_ne, ne_eq]
    omega
  have hnil : (List.range (N - 1)).filter
      (fun j => ((11 + 2*j : Nat) == 9 + 2*N)) = [] := by
    rw [List.filter_eq_nil_iff]
    intro j hj
    rw [hpt j (List.mem_range.mp hj)]
    simp
  unfold links_from chainGraph
  simp only [List.filter_cons, List.filter_map, Function.comp_def, hA,
    Bool.false_eq_true, if_false, beq_self_eq_true, if_true]
  rw [hnil]
  rfl

end BKE

namespace BKE

/-- Walking left from the input socket of reroute `R k` in `chainGraph N`
always resolves to the single terminal `(0, A)`, independently of `k`. -/
theorem chain_left_walk (N : Nat) (hN : 1 ≤ N) :
    ∀ fuel k visited, k < N → k + 1 ≤ fuel →
      (∀ j, j < k → (10 + 2*j) ∉ visited) →
      fcs_left_aux (chainGraph N) fuel visited (10 + 2*k) =
        [⟨0, 0⟩] := by
  intro fuel
  induction fuel with
  | zero => intro k visited _ hf _; omega
  | succ f ih =>
    intro k visited hk hf hvis
    by_cases hk0 : k = 0
    · subst hk0
      simp only [fcs_left_aux, Nat.mul_zero, Nat.add_zero, chainGraph_links_into_R0,
        List.flatMap_cons, List.flatMap_nil, List.append_nil]
      simp [chainGraph_node_of_A, chainA, is_reroute]
    · have hk1 : 1 ≤ k := by omega
      simp only [fcs_left_aux, chainGraph_links_into_Rk N k hk1 hk,
        List.flatMap_cons, List.flatMap_nil, List.append_nil]
      have hnode := chainGraph_node_of_Rout N (k-1) (by omega)
      have hnm : (10 + 2*(k-1)) ∉ visited := hvis (k-1) (by omega)
      have hcf : visited.contains (10 + 2*(k-1)) = false := by simpa using hnm
      simp only [hnode, chainR, is_reroute, beq_self_eq_true, if_true,
        List.head?_cons, hcf, Bool.false_eq_true, if_false]
      apply ih (k-1) ((10 + 2*(k-1)) :: visited) (by omega) (by omega)
      intro j hj
      simp only [List.mem_cons, not_or]
      exact ⟨by omega, hvis j (by omega)⟩

end BKE

namespace BKE

/-- Walking right from the output socket of reroute `R k` in `chainGraph N`
always resolves to the single terminal `(1, B)`, independently of `k`. -/
theorem chain_right_walk (N : Nat) (hN : 1 ≤ N) :
    ∀ fuel k visited, k < N → N - k ≤ fuel →
      (∀ j, k < j → j < N → (11 + 2*j) ∉ visited) →
      fcs_right_aux (chainGraph N) fuel visited (11 + 2*k) =
        [⟨1, 1⟩] := by
  intro fuel
  induction fuel with
  | zero => intro k visited hk hf _; omega
  | succ f ih =>
    intro k visited hk hf hvis
    by_cases hkN : k = N - 1
    · subst hkN
      have h9 : 11 + 2*(N-1) = 9 + 2*N := by omega
      rw [h9]
      simp only [fcs_right_aux, chainGraph_links_from_last N hN,
        List.flatMap_cons, List.flatMap_nil, List.append_nil]
      simp [chainGraph_node_of_B, chainB, is_reroute]
    · have hk1 : k + 1 < N := by omega
      simp only [fcs_right_aux, chainGraph_links_from_Rk N k hk1,
        List.flatMap_cons, List.flatMap_nil, List.append_nil]
      have h12 : (12 + 2*k : Nat) = 10 + 2*(k+1) := by omega
      have hnode := chainGraph_node_of_Rin N (k+1) (by omega)
      have hnm : (11 + 2*(k+1)) ∉ visited := hvis (k+1) (by omega) (by omega)
      have hcf : visited.contains (11 + 2*(k+1)) = false := by simpa using hnm
      simp only [h12, hnode, chainR, is_reroute, beq_self_eq_true, if_true,
        List.head?_cons, hcf, Bool.false_eq_true, if_false]
      apply ih (k+1) ((11 + 2*(k+1)) :: visited) (by omega) (by omega)
      intro j hj1 hj2
      simp only [List.mem_cons, not_or]
      exact ⟨by omega, hvis j (by omega) hj2⟩

end BKE

namespace BKE

/-- In `chainGraph N` the flattened adjacency of B's input socket is the
single terminal `(0, A)`, for every chain length `N ≥ 1`. -/
theorem chain_linked_B (N : Nat) (hN : 1 ≤ N) :
    linked (chainGraph N) 1 = [⟨0, 0⟩] := by
  have hswitch := fcs_left_aux_fuel_congr (chainGraph N) (socket_bound (chainGraph N))
    (unvisited (chainGraph N) [] + N + 1) [] 1
    (unvisited_nil_lt_socket_bound _) (by omega)
  unfold linked
  rw [chainGraph_node_of_B]
  simp only [is_reroute, chainB, List.contains_cons, beq_self_eq_true, Bool.true_or,
    if_true]
  have hBfalse : (("ShaderNodeB" == "NodeReroute") = true) = False := by simp
  simp only [hBfalse, if_false]
  unfold find_connected_sockets_left
  rw [hswitch]
  simp only [fcs_left_aux, chainGraph_links_into_B N hN, List.flatMap_cons,
    List.flatMap_nil, List.append_nil]
  have h9 : (9 + 2*N : Nat) = 11 + 2*(N-1) := by omega
  rw [h9]
  simp only [chainGraph_node_of_Rout N (N-1) (by omega), chainR, is_reroute,
    beq_self_eq_true, if_true, List.head?_cons, List.contains_nil,
    Bool.false_eq_true, if_false]
  apply chain_left_walk N hN (unvisited (chainGraph N) [] + N) (N-1) _ (by omega)
    (by omega)
  intro j hj
  simp only [List.mem_cons, List.not_mem_nil, or_false]
  omega

/-- In `chainGraph N` the flattened adjacency of A's output socket is the
single terminal `(1, B)`, for every chain length `N ≥ 1`. -/
theorem chain_linked_A (N : Nat) (hN : 1 ≤ N) :
    linked (chainGraph N) 0 = [⟨1, 1⟩] := by
  have hswitch := fcs_right_aux_fuel_congr (chainGraph N) (socket_bound (chainGraph N))
    (unvisited (chainGraph N) [] + N + 1) [] 0
    (unvisited_nil_lt_socket_bound _) (by omega)
  unfold linked
  rw [chainGraph_node_of_A]
  have hAfalse : (("ShaderNodeA" == "NodeReroute") = true) = False := by simp
  simp only [is_reroute, chainA, hAfalse, if_false, List.contains_nil,
    Bool.false_eq_true]
  unfold find_connected_sockets_right
  rw [hswitch]
  simp only [fcs_right_aux, chainGraph_links_from_A N hN, List.flatMap_cons,
    List.flatMap_nil, List.append_nil]
  have hnode : node_of_socket (chainGraph N) 10 = some (chainR 0) := by
    have h := chainGraph_node_of_Rin N 0 (by omega)
    simpa using h
  simp only [hnode, chainR, is_reroute, beq_self_eq_true, if_true,
    List.head?_cons, List.contains_nil, Bool.false_eq_true, if_false]
  have hw := chain_right_walk N hN (unvisited (chainGraph N) [] + N) 0
    ((11 + 2*0) :: []) (by omega) (by omega) ?hvis
  case hvis =>
    intro j hj1 hj2
    simp only [List.mem_cons, List.not_mem_nil, or_false]
    omega
  simpa using hw

/-- C1: routing the same endpoints through a chain of `N ≥ 1` pass-through
nodes yields exactly the same flattened terminal sets at both endpoint
sockets as routing them through a single pass-through node:
`linked` is independent of the pass-through chain length. -/
theorem chain_length_independence (N : Nat) (hN : 1 ≤ N) :
    linked (chainGraph N) 1 = linked (chainGraph 1) 1 ∧
    linked (chainGraph N) 0 = linked (chainGraph 1) 0 :=
  ⟨(chain_linked_B N hN).trans (chain_linked_B 1 le_rfl).symm,
   (chain_linked_A N hN).trans (chain_linked_A 1 le_rfl).symm⟩

/-- Witness for C1: a chain of three pass-through nodes resolves to the same
terminal sets as the single-reroute chain. -/
theorem chain_length_independence_witness :
    (1 : Nat) ≤ 3 ∧
    (linked (chainGraph 3) 1 = linked (chainGraph 1) 1 ∧
      linked (chainGraph 3) 0 = linked (chainGraph 1) 0) :=
  ⟨by decide, chain_length_independence 3 (by decide)⟩

end BKE

namespace BKE

/-! ### Claim C8: symmetry of the flattened adjacency

The spec's data model (§3, glossary) constrains graphs: a socket belongs to
exactly one node, a link runs from an output-ish socket to an input-ish
socket, and a pass-through node forwards its single input to its single
corresponding output.  Acyclicity is expressed by a topological numbering
of sockets that increases along links and through pass-through nodes. -/

/-- The spec's §3 data-model well-formedness: unique socket ownership,
links from output sockets to input sockets, pass-through nodes with exactly
one input and one output. -/
def WellFormed (g : BNodeTree) : Prop :=
  UniqueSockets g ∧
  (∀ l ∈ g.links, (∃ n ∈ g.nodes, l.fromsock ∈ n.outputs) ∧
    (∃ n ∈ g.nodes, l.tosock ∈ n.inputs)) ∧
  (∀ n ∈ g.nodes, is_reroute n = true →
    n.inputs.length = 1 ∧ n.outputs.length = 1)

instance (g : BNodeTree) : Decidable (WellFormed g) := by
  unfold WellFormed
  infer_instance

/-- Acyclicity: a topological numbering of sockets exists that strictly
increases along every link and from the inputs to the outputs of every
pass-through node. -/
def Acyclic (g : BNodeTree) : Prop :=
  ∃ f : Nat → Nat,
    (∀ l ∈ g.links, f l.fromsock < f l.tosock) ∧
    (∀ n ∈ g.nodes, is_reroute n = true →
      ∀ i ∈ n.inputs, ∀ o ∈ n.outputs, f i < f o)

/-- A rightward pass-through chain from socket `b` to socket `a`: a link
from `b` into `a` directly, or a link from `b` into a pass-through node
continued from that node's first output; the list records the intermediate
continuation sockets. -/
inductive RerouteChain (g : BNodeTree) : Nat → List Nat → Nat → Prop
  | direct {b a : Nat} : (⟨b, a⟩ : BLink) ∈ g.links → RerouteChain g b [] a
  | step {b i o a : Nat} {l : List Nat} {R : BNode} :
      (⟨b, i⟩ : BLink) ∈ g.links → node_of_socket g i = some R →
      is_reroute R = true → R.outputs.head? = some o →
      RerouteChain g o l a → RerouteChain g b (o :: l) a

/-- A leftward pass-through chain from socket `b` to socket `a`: a link
from `b` into `a` directly, or a link into `a` from a pass-through node
continued (backwards) from that node's first input; the list records the
intermediate continuation sockets. -/
inductive LeftChain (g : BNodeTree) : Nat → List Nat → Nat → Prop
  | direct {b a : Nat} : (⟨b, a⟩ : BLink) ∈ g.links → LeftChain g b [] a
  | step {b o i a : Nat} {l : List Nat} {R : BNode} :
      (⟨o, a⟩ : BLink) ∈ g.links → node_of_socket g o = some R →
      is_reroute R = true → R.inputs.head? = some i →
      LeftChain g b l i → LeftChain g b (i :: l) a

/-- The socket-to-node lookup finds a node that contains the socket, under
unique socket ownership. -/
theorem node_of_socket_eq_of_mem {g : BNodeTree} (hU : UniqueSockets g)
    {n : BNode} {s : Nat} (hn : n ∈ g.nodes) (hs : s ∈ node_sockets n) :
    node_of_socket g s = some n := by
  have hcont : ∀ m : BNode,
      (m.inputs.contains s || m.outputs.contains s) = true ↔ s ∈ node_sockets m := by
    intro m
    simp [node_sockets]
  apply find?_eq_some_of_unique hn ((hcont n).mpr hs)
  intro m hm hpm
  exact owner_unique hU hm hn ((hcont m).mp hpm) hs

/-- Under unique ownership, a node's socket list has no duplicates, so a
socket is never both an input and an output of its node. -/
theorem node_sockets_nodup {g : BNodeTree} (hU : UniqueSockets g)
    {n : BNode} (hn : n ∈ g.nodes) : (node_sockets n).Nodup :=
  (List.nodup_flatMap.mp hU).1 n hn

/-- The source socket of a graph link lies in the output list of its owning
node, as found by the lookup. -/
theorem fromsock_mem_outputs {g : BNodeTree} (hwf : WellFormed g)
    {l : BLink} (hl : l ∈ g.links) :
    ∃ n : BNode, node_of_socket g l.fromsock = some n ∧ l.fromsock ∈ n.outputs := by
  obtain ⟨hU, hlinks, _⟩ := hwf
  obtain ⟨⟨n, hn, hmem⟩, _⟩ := hlinks l hl
  exact ⟨n, node_of_socket_eq_of_mem hU hn (by simp [node_sockets, hmem]), hmem⟩

/-- The destination socket of a graph link lies in the input list of its
owning node, as found by the lookup. -/
theorem tosock_mem_inputs {g : BNodeTree} (hwf : WellFormed g)
    {l : BLink} (hl : l ∈ g.links) :
    ∃ n : BNode, node_of_socket g l.tosock = some n ∧ l.tosock ∈ n.inputs := by
  obtain ⟨hU, hlinks, _⟩ := hwf
  obtain ⟨_, ⟨n, hn, hmem⟩⟩ := hlinks l hl
  exact ⟨n, node_of_socket_eq_of_mem hU hn (by simp [node_sockets, hmem]), hmem⟩

end BKE

namespace BKE

/-- Every pair collected by the leftward walk is a non-pass-through
terminal reached through a leftward pass-through chain. -/
theorem fcs_left_aux_sound {g : BNodeTree} :
    ∀ {fuel : Nat} {visited : List Nat} {a : Nat} {p : SocketWithNode},
      p ∈ fcs_left_aux g fuel visited a →
      ∃ (N : BNode) (l : List Nat), node_of_socket g p.socket = some N ∧
        N.id = p.node ∧ is_reroute N = false ∧ LeftChain g p.socket l a := by
  intro fuel
  induction fuel with
  | zero => intro visited a p hp; cases hp
  | succ f ih =>
    intro visited a p hp
    simp only [fcs_left_aux] at hp
    rcases List.mem_flatMap.mp hp with ⟨lnk, hlnk, hbody⟩
    obtain ⟨hlmem, hta⟩ := List.mem_filter.mp hlnk
    have hta' : lnk.tosock = a := by simpa using hta
    have hlink2 : (⟨lnk.fromsock, a⟩ : BLink) ∈ g.links := by
      have heta : lnk = ⟨lnk.fromsock, a⟩ := by
        cases lnk
        simp_all
      rw [← heta]
      exact hlmem
    cases hn : node_of_socket g lnk.fromsock with
    | none => rw [hn] at hbody; cases hbody
    | some n =>
      rw [hn] at hbody
      by_cases hr : is_reroute n = true
      · simp only [hr, if_true] at hbody
        cases hh : n.inputs.head? with
        | none => rw [hh] at hbody; cases hbody
        | some i =>
          rw [hh] at hbody
          by_cases hv : visited.contains i = true
          · have hm : i ∈ visited := by simpa using hv
            simp [hm] at hbody
          · have hvf : visited.contains i = false := by simpa using hv
            simp only [hvf, Bool.false_eq_true, if_false] at hbody
            obtain ⟨N, l, h1, h2, h3, h4⟩ := ih hbody
            exact ⟨N, i :: l, h1, h2, h3, LeftChain.step hlink2 hn hr hh h4⟩
      · have hrf : is_reroute n = false := by simpa using hr
        simp only [hrf, Bool.false_eq_true, if_false] at hbody
        have hpeq : p = ⟨lnk.fromsock, n.id⟩ := by simpa using hbody
        subst hpeq
        exact ⟨n, [], hn, rfl, hrf, LeftChain.direct hlink2⟩

/-- Every pair collected by the rightward walk is a non-pass-through
terminal reached through a rightward pass-through chain. -/
theorem fcs_right_aux_sound {g : BNodeTree} :
    ∀ {fuel : Nat} {visited : List Nat} {b : Nat} {p : SocketWithNode},
      p ∈ fcs_right_aux g fuel visited b →
      ∃ (N : BNode) (l : List Nat), node_of_socket g p.socket = some N ∧
        N.id = p.node ∧ is_reroute N = false ∧ RerouteChain g b l p.socket := by
  intro fuel
  induction fuel with
  | zero => intro visited b p hp; cases hp
  | succ f ih =>
    intro visited b p hp
    simp only [fcs_right_aux] at hp
    rcases List.mem_flatMap.mp hp with ⟨lnk, hlnk, hbody⟩
    obtain ⟨hlmem, hfb⟩ := List.mem_filter.mp hlnk
    have hfb' : lnk.fromsock = b := by simpa using hfb
    have hlink2 : (⟨b, lnk.tosock⟩ : BLink) ∈ g.links := by
      have heta : lnk = ⟨b, lnk.tosock⟩ := by
        cases lnk
        simp_all
      rw [← heta]
      exact hlmem
    cases hn : node_of_socket g lnk.tosock with
    | none => rw [hn] at hbody; cases hbody
    | some n =>
      rw [hn] at hbody
      by_cases hr : is_reroute n = true
      · simp only [hr, if_true] at hbody
        cases hh : n.outputs.head? with
        | none => rw [hh] at hbody; cases hbody
        | some o =>
          rw [hh] at hbody
          by_cases hv : visited.contains o = true
          · have hm : o ∈ visited := by simpa using hv
            simp [hm] at hbody
          · have hvf : visited.contains o = false := by simpa using hv
            simp only [hvf, Bool.false_eq_true, if_false] at hbody
            obtain ⟨N, l, h1, h2, h3, h4⟩ := ih hbody
            exact ⟨N, o :: l, h1, h2, h3, RerouteChain.step hlink2 hn hr hh h4⟩
      · have hrf : is_reroute n = false := by simpa using hr
        simp only [hrf, Bool.false_eq_true, if_false] at hbody
        have hpeq : p = ⟨lnk.tosock, n.id⟩ := by simpa using hbody
        subst hpeq
        exact ⟨n, [], hn, rfl, hrf, RerouteChain.direct hlink2⟩

/-- A rightward chain starts with a link leaving `b`. -/
theorem rchain_first_link {g : BNodeTree} {b a : Nat} {l : List Nat}
    (hc : RerouteChain g b l a) : ∃ y, (⟨b, y⟩ : BLink) ∈ g.links := by
  cases hc with
  | direct h => exact ⟨_, h⟩
  | step h _ _ _ _ => exact ⟨_, h⟩

/-- A rightward chain ends with a link into `a`. -/
theorem rchain_last_link {g : BNodeTree} {b a : Nat} {l : List Nat}
    (hc : RerouteChain g b l a) : ∃ x, (⟨x, a⟩ : BLink) ∈ g.links := by
  induction hc with
  | direct h => exact ⟨_, h⟩
  | step _ _ _ _ _ ih => exact ih

/-- A leftward chain starts with a link leaving `b`. -/
theorem lchain_first_link {g : BNodeTree} {b a : Nat} {l : List Nat}
    (hc : LeftChain g b l a) : ∃ y, (⟨b, y⟩ : BLink) ∈ g.links := by
  induction hc with
  | direct h => exact ⟨_, h⟩
  | step _ _ _ _ _ ih => exact ih

/-- A leftward chain ends with a link into `a`. -/
theorem lchain_last_link {g : BNodeTree} {b a : Nat} {l : List Nat}
    (hc : LeftChain g b l a) : ∃ x, (⟨x, a⟩ : BLink) ∈ g.links := by
  cases hc with
  | direct h => exact ⟨_, h⟩
  | step h _ _ _ _ => exact ⟨_, h⟩

end BKE

namespace BKE

/-- A rightward chain into a pass-through node extends through that node's
first output to any link target of it. -/
theorem rchain_extend {g : BNodeTree} {b i : Nat} {l : List Nat}
    (hc : RerouteChain g b l i) :
    ∀ {R : BNode} {o a : Nat}, node_of_socket g i = some R →
      is_reroute R = true → R.outputs.head? = some o →
      (⟨o, a⟩ : BLink) ∈ g.links → RerouteChain g b (l ++ [o]) a := by
  induction hc with
  | direct h =>
    intro R o a hnode hrr hho hlink
    exact RerouteChain.step h hnode hrr hho (RerouteChain.direct hlink)
  | step h1 h2 h3 h4 _ ih =>
    intro R o a hnode hrr hho hlink
    exact RerouteChain.step h1 h2 h3 h4 (ih hnode hrr hho hlink)

/-- A leftward chain whose terminal is a pass-through output extends
backwards through that node's first input to any link source of it. -/
theorem lchain_extend {g : BNodeTree} {o a : Nat} {l : List Nat}
    (hc : LeftChain g o l a) :
    ∀ {R : BNode} {i b : Nat}, node_of_socket g o = some R →
      is_reroute R = true → R.inputs.head? = some i →
      (⟨b, i⟩ : BLink) ∈ g.links → LeftChain g b (l ++ [i]) a := by
  induction hc with
  | direct h =>
    intro R i b hnode hrr hhi hlink
    exact LeftChain.step h hnode hrr hhi (LeftChain.direct hlink)
  | step h1 h2 h3 h4 _ ih =>
    intro R i b hnode hrr hhi hlink
    exact LeftChain.step h1 h2 h3 h4 (ih hnode hrr hhi hlink)

/-- On a well-formed graph every leftward chain is also a rightward chain
between the same sockets. -/
theorem lchain_to_rchain {g : BNodeTree} (hwf : WellFormed g) :
    ∀ {b a : Nat} {l : List Nat}, LeftChain g b l a →
      ∃ m, RerouteChain g b m a := by
  intro b a l hc
  induction hc with
  | direct h => exact ⟨[], RerouteChain.direct h⟩
  | step hlink hnode hrr hhi =>
    rename_i o1 i1 a1 l1 R htail ih
    obtain ⟨m, hm⟩ := ih
    obtain ⟨n1, hn1, hmemo⟩ := fromsock_mem_outputs hwf hlink
    rw [hnode] at hn1
    obtain rfl : n1 = R := (Option.some.inj hn1).symm
    have hRmem : n1 ∈ g.nodes := List.mem_of_find?_eq_some hnode
    obtain ⟨o0, ho0⟩ := List.length_eq_one.mp (hwf.2.2 n1 hRmem hrr).2
    have hoeq : o1 = o0 := by
      rw [ho0] at hmemo
      simpa using hmemo
    have hho : n1.outputs.head? = some o1 := by
      rw [ho0, hoeq]
      rfl
    have hiR : i1 ∈ n1.inputs := List.mem_of_mem_head? (by rw [hhi]; rfl)
    have hnodei : node_of_socket g i1 = some n1 :=
      node_of_socket_eq_of_mem hwf.1 hRmem
        (by simp only [node_sockets, List.mem_append]; exact Or.inl hiR)
    exact ⟨m ++ [o1], rchain_extend hm hnodei hrr hho hlink⟩

/-- On a well-formed graph every rightward chain is also a leftward chain
between the same sockets. -/
theorem rchain_to_lchain {g : BNodeTree} (hwf : WellFormed g) :
    ∀ {b a : Nat} {l : List Nat}, RerouteChain g b l a →
      ∃ m, LeftChain g b m a := by
  intro b a l hc
  induction hc with
  | direct h => exact ⟨[], LeftChain.direct h⟩
  | step hlink hnode hrr hho =>
    rename_i i1 o1 a1 l1 R htail ih
    obtain ⟨m, hm⟩ := ih
    obtain ⟨n1, hn1, hmemi⟩ := tosock_mem_inputs hwf hlink
    rw [hnode] at hn1
    obtain rfl : n1 = R := (Option.some.inj hn1).symm
    have hRmem : n1 ∈ g.nodes := List.mem_of_find?_eq_some hnode
    obtain ⟨i0, hi0⟩ := List.length_eq_one.mp (hwf.2.2 n1 hRmem hrr).1
    have hieq : i1 = i0 := by
      rw [hi0] at hmemi
      simpa using hmemi
    have hhi : n1.inputs.head? = some i1 := by
      rw [hi0, hieq]
      rfl
    have hoR : o1 ∈ n1.outputs := List.mem_of_mem_head? (by rw [hho]; rfl)
    have hnodeo : node_of_socket g o1 = some n1 :=
      node_of_socket_eq_of_mem hwf.1 hRmem
        (by simp only [node_sockets, List.mem_append]; exact Or.inr hoR)
    exact ⟨m ++ [i1], lchain_extend hm hnodeo hrr hhi hlink⟩

end BKE

namespace BKE

/-- A rightward chain whose continuation sockets are fresh is found by the
rightward walk: the walk from `b` collects the terminal `(a, Na)`. -/
theorem rchain_complete {g : BNodeTree} :
    ∀ {b a : Nat} {l : List Nat}, RerouteChain g b l a →
      ∀ (Na : BNode), node_of_socket g a = some Na → is_reroute Na = false →
      ∀ (fuel : Nat) (visited : List Nat), l.length < fuel → l.Nodup →
      (∀ x ∈ l, x ∉ visited) →
      (⟨a, Na.id⟩ : SocketWithNode) ∈ fcs_right_aux g fuel visited b := by
  intro b a l hc
  induction hc with
  | direct hlink =>
    intro Na hNa hnr fuel visited hf _ _
    cases fuel with
    | zero => omega
    | succ f =>
      simp only [fcs_right_aux]
      apply List.mem_flatMap.mpr
      refine ⟨_, List.mem_filter.mpr ⟨hlink, by simp⟩, ?_⟩
      simp only [hNa, hnr, Bool.false_eq_true, if_false]
      simp
  | step hlink hnode hrr hho =>
    rename_i i1 o1 a1 l1 R htail ih
    intro Na hNa hnr fuel visited hf hnd hdis
    cases fuel with
    | zero => simp at hf
    | succ f =>
      simp only [fcs_right_aux]
      apply List.mem_flatMap.mpr
      refine ⟨_, List.mem_filter.mpr ⟨hlink, by simp⟩, ?_⟩
      have ho_nv : visited.contains o1 = false := by
        simpa using hdis o1 (List.mem_cons_self _ _)
      simp only [hnode, hrr, if_true, hho, ho_nv, Bool.false_eq_true, if_false]
      apply ih Na hNa hnr f (o1 :: visited)
      · simp only [List.length_cons] at hf
        omega
      · exact (List.nodup_cons.mp hnd).2
      · intro x hx
        simp only [List.mem_cons, not_or]
        refine ⟨?_, hdis x (List.mem_cons_of_mem _ hx)⟩
        intro heq
        exact (List.nodup_cons.mp hnd).1 (heq ▸ hx)

end BKE

namespace BKE

/-- A leftward chain whose continuation sockets are fresh is found by the
leftward walk: the walk from `a` collects the terminal `(b, Nb)`. -/
theorem lchain_complete {g : BNodeTree} :
    ∀ {b a : Nat} {l : List Nat}, LeftChain g b l a →
      ∀ (Nb : BNode), node_of_socket g b = some Nb → is_reroute Nb = false →
      ∀ (fuel : Nat) (visited : List Nat), l.length < fuel → l.Nodup →
      (∀ x ∈ l, x ∉ visited) →
      (⟨b, Nb.id⟩ : SocketWithNode) ∈ fcs_left_aux g fuel visited a := by
  intro b a l hc
  induction hc with
  | direct hlink =>
    intro Nb hNb hnr fuel visited hf _ _
    cases fuel with
    | zero => omega
    | succ f =>
      simp only [fcs_left_aux]
      apply List.mem_flatMap.mpr
      refine ⟨_, List.mem_filter.mpr ⟨hlink, by simp⟩, ?_⟩
      simp only [hNb, hnr, Bool.false_eq_true, if_false]
      simp
  | step hlink hnode hrr hhi =>
    rename_i o1 i1 a1 l1 R htail ih
    intro Nb hNb hnr fuel visited hf hnd hdis
    cases fuel with
    | zero => simp at hf
    | succ f =>
      simp only [fcs_left_aux]
      apply List.mem_flatMap.mpr
      refine ⟨_, List.mem_filter.mpr ⟨hlink, by simp⟩, ?_⟩
      have hi_nv : visited.contains i1 = false := by
        simpa using hdis i1 (List.mem_cons_self _ _)
      simp only [hnode, hrr, if_true, hhi, hi_nv, Bool.false_eq_true, if_false]
      apply ih Nb hNb hnr f (i1 :: visited)
      · simp only [List.length_cons] at hf
        omega
      · exact (List.nodup_cons.mp hnd).2
      · intro x hx
        simp only [List.mem_cons, not_or]
        refine ⟨?_, hdis x (List.mem_cons_of_mem _ hx)⟩
        intro heq
        exact (List.nodup_cons.mp hnd).1 (heq ▸ hx)

end BKE

namespace BKE

/-- Along a rightward chain the topological numbering strictly increases. -/
theorem rchain_chain_lt {g : BNodeTree} (hwf : WellFormed g) {f : Nat → Nat}
    (hf1 : ∀ l ∈ g.links, f l.fromsock < f l.tosock)
    (hf2 : ∀ n ∈ g.nodes, is_reroute n = true →
      ∀ i ∈ n.inputs, ∀ o ∈ n.outputs, f i < f o) :
    ∀ {b a : Nat} {l : List Nat}, RerouteChain g b l a →
      List.Chain (fun x y => f x < f y) b l := by
  intro b a l hc
  induction hc with
  | direct _ => exact List.Chain.nil
  | step hlink hnode hrr hho =>
    rename_i i1 o1 a1 l1 R htail ih
    have h1 := hf1 _ hlink
    obtain ⟨n1, hn1, hmemi⟩ := tosock_mem_inputs hwf hlink
    rw [hnode] at hn1
    obtain rfl : n1 = R := (Option.some.inj hn1).symm
    have hRmem : n1 ∈ g.nodes := List.mem_of_find?_eq_some hnode
    have hoR : o1 ∈ n1.outputs := List.mem_of_mem_head? (by rw [hho]; rfl)
    have h2 : f i1 < f o1 := hf2 n1 hRmem hrr i1 (by simpa using hmemi) o1 hoR
    exact List.Chain.cons (Nat.lt_trans h1 h2) ih

/-- Along a leftward chain the topological numbering strictly decreases. -/
theorem lchain_chain_gt {g : BNodeTree} (hwf : WellFormed g) {f : Nat → Nat}
    (hf1 : ∀ l ∈ g.links, f l.fromsock < f l.tosock)
    (hf2 : ∀ n ∈ g.nodes, is_reroute n = true →
      ∀ i ∈ n.inputs, ∀ o ∈ n.outputs, f i < f o) :
    ∀ {b a : Nat} {l : List Nat}, LeftChain g b l a →
      List.Chain (fun x y => f y < f x) a l := by
  intro b a l hc
  induction hc with
  | direct _ => exact List.Chain.nil
  | step hlink hnode hrr hhi =>
    rename_i o1 i1 a1 l1 R htail ih
    have h1 := hf1 _ hlink
    obtain ⟨n1, hn1, hmemo⟩ := fromsock_mem_outputs hwf hlink
    rw [hnode] at hn1
    obtain rfl : n1 = R := (Option.some.inj hn1).symm
    have hRmem : n1 ∈ g.nodes := List.mem_of_find?_eq_some hnode
    have hiR : i1 ∈ n1.inputs := List.mem_of_mem_head? (by rw [hhi]; rfl)
    have h2 : f i1 < f o1 := hf2 n1 hRmem hrr i1 hiR _ (by simpa using hmemo)
    exact List.Chain.cons (Nat.lt_trans h2 h1) ih

/-- A list strictly increasing under some numbering has no duplicates. -/
theorem chain_lt_nodup {f : Nat → Nat} {b : Nat} {l : List Nat}
    (hc : List.Chain (fun x y => f x < f y) b l) : (b :: l).Nodup := by
  haveI : IsTrans Nat (fun x y => f x < f y) := ⟨fun _ _ _ h1 h2 => Nat.lt_trans h1 h2⟩
  exact (List.Chain.pairwise hc).imp (fun h => by
    intro heq
    subst heq
    exact Nat.lt_irrefl _ h)

/-- A list strictly decreasing under some numbering has no duplicates. -/
theorem chain_gt_nodup {f : Nat → Nat} {b : Nat} {l : List Nat}
    (hc : List.Chain (fun x y => f y < f x) b l) : (b :: l).Nodup := by
  haveI : IsTrans Nat (fun x y => f y < f x) := ⟨fun _ _ _ h1 h2 => Nat.lt_trans h2 h1⟩
  exact (List.Chain.pairwise hc).imp (fun h => by
    intro heq
    subst heq
    exact Nat.lt_irrefl _ h)

/-- The continuation sockets of a rightward chain are graph sockets. -/
theorem rchain_subset {g : BNodeTree} :
    ∀ {b a : Nat} {l : List Nat}, RerouteChain g b l a →
      ∀ x ∈ l, x ∈ allSockets g := by
  intro b a l hc
  induction hc with
  | direct _ => intro x hx; cases hx
  | step hlink hnode hrr hho =>
    rename_i i1 o1 a1 l1 R htail ih
    intro x hx
    rcases List.mem_cons.mp hx with h | h
    · subst h
      exact head_output_mem_allSockets hnode hho
    · exact ih x h

/-- The continuation sockets of a leftward chain are graph sockets. -/
theorem lchain_subset {g : BNodeTree} :
    ∀ {b a : Nat} {l : List Nat}, LeftChain g b l a →
      ∀ x ∈ l, x ∈ allSockets g := by
  intro b a l hc
  induction hc with
  | direct _ => intro x hx; cases hx
  | step hlink hnode hrr hhi =>
    rename_i o1 i1 a1 l1 R htail ih
    intro x hx
    rcases List.mem_cons.mp hx with h | h
    · subst h
      exact head_input_mem_allSockets hnode hhi
    · exact ih x h

/-- A duplicate-free list of graph sockets is no longer than the number of
distinct graph sockets. -/
theorem nodup_subset_length_le {l L : List Nat} (hnd : l.Nodup)
    (hsub : ∀ x ∈ l, x ∈ L) : l.length ≤ L.dedup.length := by
  calc l.length = l.toFinset.card := (List.toFinset_card_of_nodup hnd).symm
    _ ≤ L.toFinset.card := Finset.card_le_card
        (fun x hx => List.mem_toFinset.mpr (hsub x (List.mem_toFinset.mp hx)))
    _ = L.dedup.length := List.card_toFinset L

end BKE

namespace BKE

/-- C8 (amended): on every acyclic graph that satisfies the spec's
data-model well-formedness (unique socket ownership, links from output
sockets to input sockets, pass-through nodes with exactly one input and one
output), if the flattened adjacency places `(sb, nb)` in the resolution set
of `sa`, then resolving from `sb` in the opposite direction yields a set
containing `sa` with its owning node. -/
theorem linked_symmetric (g : BNodeTree) (hwf : WellFormed g) (hac : Acyclic g)
    (sa sb nb : Nat)
    (hmem : (⟨sb, nb⟩ : SocketWithNode) ∈ linked g sa) :
    ∃ na : BNode, node_of_socket g sa = some na ∧
      (⟨sa, na.id⟩ : SocketWithNode) ∈ linked g sb := by
  obtain ⟨f, hf1, hf2⟩ := hac
  unfold linked at hmem
  cases hna : node_of_socket g sa with
  | none =>
    rw [hna] at hmem
    exact absurd hmem (List.not_mem_nil _)
  | some na =>
    rw [hna] at hmem
    dsimp only at hmem
    by_cases hr : is_reroute na = true
    · rw [if_pos hr] at hmem
      cases hmem
    · have hrf : is_reroute na = false := by simpa using hr
      rw [if_neg hr] at hmem
      refine ⟨na, rfl, ?_⟩
      by_cases hin : na.inputs.contains sa = true
      · rw [if_pos hin] at hmem
        unfold find_connected_sockets_left at hmem
        obtain ⟨Nb, lc, hNb, hNbid, hNbr, hlc⟩ := fcs_left_aux_sound hmem
        dsimp only at hNb hNbid hlc
        obtain ⟨m, hm⟩ := lchain_to_rchain hwf hlc
        obtain ⟨y, hy⟩ := rchain_first_link hm
        obtain ⟨n2, hn2, hout⟩ := fromsock_mem_outputs hwf hy
        dsimp only at hn2 hout
        rw [hNb] at hn2
        obtain rfl : n2 = Nb := (Option.some.inj hn2).symm
        have hNbmem : n2 ∈ g.nodes := List.mem_of_find?_eq_some hNb
        have hnd := node_sockets_nodup hwf.1 hNbmem
        have hnotin : sb ∉ n2.inputs := by
          unfold node_sockets at hnd
          intro hmem2
          exact (List.nodup_append.mp hnd).2.2 hmem2 hout
        have hcf : n2.inputs.contains sb = false := by simpa using hnotin
        have hchain := rchain_chain_lt hwf hf1 hf2 hm
        have hndchain := chain_lt_nodup hchain
        have hmnodup : m.Nodup := (List.nodup_cons.mp hndchain).2
        have hsub := rchain_subset hm
        have hlen : m.length < socket_bound g := by
          have := nodup_subset_length_le hmnodup hsub
          unfold socket_bound
          omega
        have hgoal := rchain_complete hm na hna hrf (socket_bound g) [] hlen
          hmnodup (fun x _ => List.not_mem_nil x)
        simp only [linked, hNb, hNbr, Bool.false_eq_true, if_false, hcf]
        exact hgoal
      · rw [if_neg hin] at hmem
        unfold find_connected_sockets_right at hmem
        obtain ⟨Nb, lc, hNb, hNbid, hNbr, hrc⟩ := fcs_right_aux_sound hmem
        dsimp only at hNb hNbid hrc
        obtain ⟨m, hm⟩ := rchain_to_lchain hwf hrc
        obtain ⟨x, hx⟩ := rchain_last_link hrc
        obtain ⟨n2, hn2, hinp⟩ := tosock_mem_inputs hwf hx
        dsimp only at hn2 hinp
        rw [hNb] at hn2
        obtain rfl : n2 = Nb := (Option.some.inj hn2).symm
        have hct : n2.inputs.contains sb = true := by simpa using hinp
        have hchain := lchain_chain_gt hwf hf1 hf2 hm
        have hndchain := chain_gt_nodup hchain
        have hmnodup : m.Nodup := (List.nodup_cons.mp hndchain).2
        have hsub := lchain_subset hm
        have hlen : m.length < socket_bound g := by
          have := nodup_subset_length_le hmnodup hsub
          unfold socket_bound
          omega
        have hgoal := lchain_complete hm na hna hrf (socket_bound g) [] hlen
          hmnodup (fun x _ => List.not_mem_nil x)
        simp only [linked, hNb, hNbr, Bool.false_eq_true, if_false, hct, if_true]
        exact hgoal

end BKE

namespace BKE

/-- An acyclic graph violating the pass-through data model: the reroute
node `7` has two outputs (`11`, `12`).  Node `5` (output `0`) feeds the
reroute's input `10`; the reroute's second output `12` feeds node `6`
(input `1`). -/
def badTree : BNodeTree :=
  ⟨[⟨5, "ShaderNodeB", [], [0]⟩,
    ⟨6, "ShaderNodeA", [1], []⟩,
    ⟨7, "NodeReroute", [10], [11, 12]⟩],
   [⟨0, 10⟩, ⟨12, 1⟩]⟩

/-- Counterexample to C8 as stated: `badTree` is acyclic, the flattened
adjacency of socket `1` contains `(0, node 5)`, yet resolving from socket
`0` in the opposite direction does not contain socket `1`: resolution
through a pass-through node always continues through the node's first
output, so a multi-output pass-through breaks the symmetry even on an
acyclic graph. -/
theorem linked_symmetric_counterexample :
    Acyclic badTree ∧
    (⟨0, 5⟩ : SocketWithNode) ∈ linked badTree 1 ∧
    (⟨1, 6⟩ : SocketWithNode) ∉ linked badTree 0 := by
  refine ⟨⟨fun s => if s = 0 then 0 else if s = 10 then 1 else
    if s = 1 then 3 else 2, ?_, ?_⟩, by decide, by decide⟩
  · decide
  · decide

/-- Witness for the amended C8 on the spec's §8 scenario graph: the
flattened set of B's input `1` contains `(0, A)`, and symmetry recovers
`(1, B)` from socket `0`. -/
theorem linked_symmetric_witness :
    ∃ na : BNode, node_of_socket sampleTree 1 = some na ∧
      (⟨1, na.id⟩ : SocketWithNode) ∈ linked sampleTree 0 :=
  linked_symmetric sampleTree (by decide)
    ⟨fun s => if s = 0 then 0 else if s = 10 then 1 else
      if s = 11 then 2 else 3, by decide, by decide⟩
    1 0 0 (by decide)

end BKE
